import Mathlib

/-!
Verification of `host/utils/usrp_gen_rx_fe_cal_table.cpp` (UHD RX front-end
calibration table generator).

The embedding models the double-precision C++ arithmetic with exact rationals
(`ℚ`).  The complex correction value `std::polar(ampl_corr+1, phase_corr*tau)`
is kept abstract as a function `corrOf : ℚ → ℚ → C`, since every claim
identifies a correction by its `(phase, ampl)` search coordinates (the spec's
data model states a Correction is "uniquely identified by its (phase,
amplitude) coordinates").  The initial `std::complex<double> best_correction`
is value zero; its model is an explicit `czero : C` parameter.
-/

/-- One axis scan of the C++ loop
`for (double v = start; v <= stop + step/2; v += step)`.
The `fuel` argument makes the recursion structural; the C++ loop terminates
exactly when `step > 0`, and in every reachable search state `step > 0` holds
and `fuel = num_search_steps + 1` over-approximates the iteration count
(proved in `scanLoop_grid`), so the model agrees with the loop. -/
def scanLoop (stop step : ℚ) : ℕ → ℚ → List ℚ
  | 0, _ => []
  | fuel+1, v => if v ≤ stop + step / 2 then v :: scanLoop stop step fuel (v + step) else []

/-- The running best of the per-frequency search: the C++ locals
`best_correction`, `best_suppression`, `best_phase_corr`, `best_ampl_corr`. -/
structure Best (C : Type) where
  correction : C
  suppression : ℚ
  phase : ℚ
  ampl : ℚ
deriving DecidableEq

/-- The search window: the C++ locals `phase_corr_start`, `phase_corr_stop`,
`ampl_corr_start`, `ampl_corr_stop`. -/
structure Window where
  phase_corr_start : ℚ
  phase_corr_stop : ℚ
  ampl_corr_start : ℚ
  ampl_corr_stop : ℚ
deriving DecidableEq

/-- Modelled from the spec: `num_search_steps` comes from `usrp_cal_utils.hpp`,
which is not among the provided sources; the spec's design default is a grid of
5 distinct values per axis. -/
def num_search_steps : ℕ := 5

/-- Modelled from the spec: `num_search_iters` comes from `usrp_cal_utils.hpp`,
which is not among the provided sources; the spec says "iterations = small
constant (e.g. 4–10)"; we fix 7.  All parametric theorems below hold for any
value, so nothing depends on this choice. -/
def num_search_iters : ℕ := 7

section Search

variable {C : Type} (corrOf : ℚ → ℚ → C) (measure : ℚ → ℚ → ℚ) (n : ℕ)

/-- The body of the innermost loop: update the running best when the measured
suppression strictly exceeds the current `best_suppression`
(`if (suppression > best_suppression) { ... }`). -/
def pointUpdate (b : Best C) (p a : ℚ) : Best C :=
  if measure p a > b.suppression then ⟨corrOf p a, measure p a, p, a⟩ else b

/-- The two nested grid loops of one search round: phase outer, amplitude
inner, both low-to-high. -/
def gridScan (phases ampls : List ℚ) (b : Best C) : Best C :=
  phases.foldl (fun acc p => ampls.foldl (fun acc2 a => pointUpdate corrOf measure acc2 p a) acc) b

/-- `phase_corr_step = (phase_corr_stop - phase_corr_start)/(num_search_steps-1)`
(the `num_search_steps - 1` is C++ `size_t` subtraction, hence `ℕ`
subtraction cast to `ℚ`). -/
def phaseStep (w : Window) : ℚ := (w.phase_corr_stop - w.phase_corr_start) / ((n - 1 : ℕ) : ℚ)

/-- `ampl_corr_step = (ampl_corr_stop - ampl_corr_start)/(num_search_steps-1)`. -/
def amplStep (w : Window) : ℚ := (w.ampl_corr_stop - w.ampl_corr_start) / ((n - 1 : ℕ) : ℚ)

/-- Phase grid values visited in one round. -/
def roundPhases (w : Window) : List ℚ :=
  scanLoop w.phase_corr_stop (phaseStep n w) (n + 1) w.phase_corr_start

/-- Amplitude grid values visited in one round. -/
def roundAmpls (w : Window) : List ℚ :=
  scanLoop w.ampl_corr_stop (amplStep n w) (n + 1) w.ampl_corr_start

/-- One iteration of `for (size_t i = 0; i < num_search_iters; i++)`: compute
the per-axis steps, scan the grid, then re-center the window on the best
point found (`phase_corr_start = best_phase_corr - phase_corr_step; ...`). -/
def searchRound (st : Window × Best C) : Window × Best C :=
  let w := st.1
  let pstep := phaseStep n w
  let astep := amplStep n w
  let b := gridScan corrOf measure (roundPhases n w) (roundAmpls n w) st.2
  (⟨b.phase - pstep, b.phase + pstep, b.ampl - astep, b.ampl + astep⟩, b)

/-- Initial window: `phase_corr_start = -.3, phase_corr_stop = .3,
ampl_corr_start = -.3, ampl_corr_stop = .3`. -/
def initWindow : Window := ⟨-(3/10), 3/10, -(3/10), 3/10⟩

/-- Initial best: `best_correction` default-constructed (zero),
`best_suppression = 0, best_phase_corr = 0, best_ampl_corr = 0`. -/
def initBest (czero : C) : Best C := ⟨czero, 0, 0, 0⟩

/-- The state (window, running best) after `k` search rounds. -/
def searchTrace (czero : C) : ℕ → Window × Best C
  | 0 => (initWindow, initBest czero)
  | k+1 => searchRound corrOf measure n (searchTrace czero k)

/-- The best returned by the whole per-frequency search. -/
def search (czero : C) (iters : ℕ) : Best C := (searchTrace corrOf measure n czero iters).2

end Search

/-- All `(phase, ampl)` pairs of a round's grid in scan order
(phase outer, amplitude inner). -/
def evalPts (phases ampls : List ℚ) : List (ℚ × ℚ) :=
  phases.flatMap fun p => ampls.map fun a => (p, a)

/-- The grid points evaluated during round `k+1` (0-indexed `k`). -/
def roundEvals {C : Type} (corrOf : ℚ → ℚ → C) (measure : ℚ → ℚ → ℚ) (n : ℕ)
    (czero : C) (k : ℕ) : List (ℚ × ℚ) :=
  evalPts (roundPhases n (searchTrace corrOf measure n czero k).1)
    (roundAmpls n (searchTrace corrOf measure n czero k).1)

/-- Every grid point evaluated across `iters` rounds, in evaluation order. -/
def allEvals {C : Type} (corrOf : ℚ → ℚ → C) (measure : ℚ → ℚ → ℚ) (n : ℕ)
    (czero : C) (iters : ℕ) : List (ℚ × ℚ) :=
  (List.range iters).flatMap (roundEvals corrOf measure n czero)

/-- `pointUpdate` uncurried over a grid point. -/
def pointUpd {C : Type} (corrOf : ℚ → ℚ → C) (measure : ℚ → ℚ → ℚ)
    (b : Best C) (q : ℚ × ℚ) : Best C := pointUpdate corrOf measure b q.1 q.2

/-!
## Fallible search and sweep model

`capture_samples` throws on a device error or a short read; inside the search
this aborts the whole program.  The measurement taken at a grid point is
therefore modelled as `Except Unit ℚ` (`.error` = the capture threw), and the
search and sweep propagate the first error outward, as C++ exception
unwinding does.
-/

/-- `uhd::rx_metadata_t::ERROR_CODE_NONE`. -/
def ERROR_CODE_NONE : ℕ := 0

/-- `capture_samples`: raises on a device-reported error code, then on a
sample count differing from the requested buffer size, otherwise returns
normally with the buffer filled.  `error_code` is the numeric value of
`md.error_code`, `num_rx_samps` the value returned by `recv`, `nsamps` the
requested `buff.size()`. -/
def capture_samples (error_code num_rx_samps nsamps : ℕ) : Except String Unit :=
  if error_code ≠ ERROR_CODE_NONE then .error "Unexpected error code"
  else if num_rx_samps ≠ nsamps then .error "did not get all the samples requested"
  else .ok ()

/-- A fallible grid-point update: propagate an earlier error, otherwise
measure and update the running best exactly as `pointUpdate` does. -/
def pointUpdE {C : Type} (corrOf : ℚ → ℚ → C) (measureE : ℚ → ℚ → Except Unit ℚ)
    (acc : Except Unit (Best C)) (q : ℚ × ℚ) : Except Unit (Best C) :=
  match acc with
  | .error e => .error e
  | .ok b =>
    match measureE q.1 q.2 with
    | .error e => .error e
    | .ok s => .ok (if s > b.suppression then ⟨corrOf q.1 q.2, s, q.1, q.2⟩ else b)

/-- The two nested grid loops with fallible measurements. -/
def gridScanE {C : Type} (corrOf : ℚ → ℚ → C) (measureE : ℚ → ℚ → Except Unit ℚ)
    (phases ampls : List ℚ) (b : Best C) : Except Unit (Best C) :=
  phases.foldl
    (fun acc p => ampls.foldl (fun acc2 a => pointUpdE corrOf measureE acc2 (p, a)) acc)
    (.ok b)

/-- One fallible search round. -/
def searchRoundE {C : Type} (corrOf : ℚ → ℚ → C) (measureE : ℚ → ℚ → Except Unit ℚ)
    (n : ℕ) (st : Window × Best C) : Except Unit (Window × Best C) :=
  match gridScanE corrOf measureE (roundPhases n st.1) (roundAmpls n st.1) st.2 with
  | .error e => .error e
  | .ok b =>
    .ok (⟨b.phase - phaseStep n st.1, b.phase + phaseStep n st.1,
      b.ampl - amplStep n st.1, b.ampl + amplStep n st.1⟩, b)

/-- The fallible search state after `k` rounds. -/
def searchTraceE {C : Type} (corrOf : ℚ → ℚ → C) (measureE : ℚ → ℚ → Except Unit ℚ)
    (n : ℕ) (czero : C) : ℕ → Except Unit (Window × Best C)
  | 0 => .ok (initWindow, initBest czero)
  | k+1 =>
    match searchTraceE corrOf measureE n czero k with
    | .error e => .error e
    | .ok st => searchRoundE corrOf measureE n st

/-- The fallible per-frequency search. -/
def searchE {C : Type} (corrOf : ℚ → ℚ → C) (measureE : ℚ → ℚ → Except Unit ℚ)
    (n : ℕ) (czero : C) (iters : ℕ) : Except Unit (Best C) :=
  match searchTraceE corrOf measureE n czero iters with
  | .error e => .error e
  | .ok st => .ok st.2

/-- Observable effects of the main routine:
`tuneEv f` — `tune_rx_and_tx` is entered for candidate frequency `f`;
`stopTxEv` — `threads.interrupt_all(); threads.join_all()`, upon which
`tx_thread` leaves its send loop and sends the end-of-burst packet;
`storeEv` — `store_results` writes the calibration table. -/
inductive Ev where
  | tuneEv (f : ℚ)
  | stopTxEv
  | storeEv
deriving DecidableEq

/-- The two hardware exceptions that can abort the sweep:
`lockTimeout` — `tune_rx_and_tx` timed out waiting for LO lock;
`captureErr` — `capture_samples` threw during the search. -/
inductive SweepErr where
  | lockTimeout
  | captureErr
deriving DecidableEq

/-- `result_t` from `usrp_cal_utils.hpp`, modelled from the spec's
CalibrationEntry: frequency, correction (the abstract complex value standing
for the `real_corr`/`imag_corr` pair), and suppression in dB. -/
structure result_t (C : Type) where
  freq : ℚ
  corr : C
  sup : ℚ
deriving DecidableEq

/-- The per-frequency sweep loop body iterated over a list of candidate
frequencies.  `tuneO f` is the outcome of `tune_rx_and_tx` at candidate `f`
(`none` = LO lock timeout, `some rx_lo` = the actual RX frequency read back);
`measureE rx_lo p a` is the suppression measured at grid point `(p, a)` while
tuned to `rx_lo` (`.error` = `capture_samples` threw).  Returns the emitted
event trace and either the accumulated table or the first error, which
aborts the remaining candidates exactly as the C++ exception does. -/
def runSweep {C : Type} (corrOf : ℚ → ℚ → C) (tuneO : ℚ → Option ℚ)
    (measureE : ℚ → ℚ → ℚ → Except Unit ℚ) (n iters : ℕ) (czero : C) :
    List ℚ → List Ev × Except SweepErr (List (result_t C))
  | [] => ([], .ok [])
  | f :: rest =>
    match tuneO f with
    | none => ([Ev.tuneEv f], .error SweepErr.lockTimeout)
    | some rx_lo =>
      match searchE corrOf (measureE rx_lo) n czero iters with
      | .error _ => ([Ev.tuneEv f], .error SweepErr.captureErr)
      | .ok b =>
        let r := runSweep corrOf tuneO measureE n iters czero rest
        (Ev.tuneEv f :: r.1,
          match r.2 with
          | .error e => .error e
          | .ok tbl =>
            .ok ((if b.suppression > 30 then [⟨rx_lo, b.correction, b.suppression⟩] else []) ++ tbl))

/-- The whole of `UHD_SAFE_MAIN` after setup: run the sweep loop; on normal
completion interrupt and join the transmit thread and then call
`store_results`; on an exception, `UHD_SAFE_MAIN` (modelled from the spec:
`safe_main.hpp` is not among the provided sources, and the spec says an
aborted sweep reports the error and produces no result table) catches it,
reports, and returns — the statements after the loop never run. -/
def mainRun {C : Type} (corrOf : ℚ → ℚ → C) (tuneO : ℚ → Option ℚ)
    (measureE : ℚ → ℚ → ℚ → Except Unit ℚ) (n iters : ℕ) (czero : C) (freqs : List ℚ) :
    List Ev × Except SweepErr (List (result_t C)) :=
  let r := runSweep corrOf tuneO measureE n iters czero freqs
  match r.2 with
  | .ok tbl => (r.1 ++ [Ev.stopTxEv, Ev.storeEv], .ok tbl)
  | .error e => (r.1, .error e)

/-- The frequency sweep loop
`for (double v = start; v < stop; v += step)` (strict comparison), with fuel
as in `scanLoop`. -/
def freqLoop (stop step : ℚ) : ℕ → ℚ → List ℚ
  | 0, _ => []
  | fuel+1, v => if v < stop then v :: freqLoop stop step fuel (v + step) else []

/-- The candidate frequencies of the sweep:
`for (double rx_lo_i = freq_range.start()+50e6; rx_lo_i < freq_range.stop()-50e6;
rx_lo_i += freq_step)`. -/
def sweepCands (rstart rstop step : ℚ) (fuel : ℕ) : List ℚ :=
  freqLoop (rstop - 50000000) step fuel (rstart + 50000000)

section FoldLemmas

variable {C : Type} (corrOf : ℚ → ℚ → C) (measure : ℚ → ℚ → ℚ)

lemma gridScan_eq_foldl (phases ampls : List ℚ) (b : Best C) :
    gridScan corrOf measure phases ampls b =
      (evalPts phases ampls).foldl (pointUpd corrOf measure) b := by
  induction phases generalizing b with
  | nil => rfl
  | cons p ps ih =>
    simp only [gridScan, List.foldl_cons, evalPts, List.flatMap_cons, List.foldl_append,
      List.foldl_map]
    rw [← gridScan, ih]
    rfl

lemma pointUpd_sup_le (b : Best C) (q : ℚ × ℚ) :
    b.suppression ≤ (pointUpd corrOf measure b q).suppression := by
  unfold pointUpd pointUpdate
  split
  · next h => exact le_of_lt h
  · exact le_refl _

lemma foldl_sup_mono (l : List (ℚ × ℚ)) (b : Best C) :
    b.suppression ≤ (l.foldl (pointUpd corrOf measure) b).suppression := by
  induction l generalizing b with
  | nil => exact le_refl _
  | cons q t ih =>
    exact le_trans (pointUpd_sup_le corrOf measure b q) (ih _)

lemma foldl_le_sup (l : List (ℚ × ℚ)) (b : Best C) :
    ∀ q ∈ l, measure q.1 q.2 ≤ (l.foldl (pointUpd corrOf measure) b).suppression := by
  induction l generalizing b with
  | nil => intro q hq; cases hq
  | cons r t ih =>
    intro q hq
    rcases List.mem_cons.mp hq with h | h
    · rw [h]
      refine le_trans ?_ (foldl_sup_mono corrOf measure t (pointUpd corrOf measure b r))
      unfold pointUpd pointUpdate
      split
      · exact le_refl _
      · next h2 => exact le_of_not_lt h2
    · exact ih _ q h

lemma foldl_no_update (l : List (ℚ × ℚ)) (b : Best C)
    (h : ∀ q ∈ l, measure q.1 q.2 ≤ b.suppression) :
    l.foldl (pointUpd corrOf measure) b = b := by
  induction l with
  | nil => rfl
  | cons r t ih =>
    have hr : pointUpd corrOf measure b r = b := by
      unfold pointUpd pointUpdate
      exact if_neg (not_lt.mpr (h r (List.mem_cons_self r t)))
    rw [List.foldl_cons, hr]
    exact ih fun q hq => h q (List.mem_cons_of_mem r hq)

lemma foldl_provenance (l : List (ℚ × ℚ)) (b : Best C) :
    l.foldl (pointUpd corrOf measure) b = b ∨
      ∃ q ∈ l, l.foldl (pointUpd corrOf measure) b =
        ⟨corrOf q.1 q.2, measure q.1 q.2, q.1, q.2⟩ := by
  induction l generalizing b with
  | nil => exact Or.inl rfl
  | cons r t ih =>
    rw [List.foldl_cons]
    rcases ih (pointUpd corrOf measure b r) with h | ⟨q, hq, hform⟩
    · rw [h]
      unfold pointUpd pointUpdate
      split
      · exact Or.inr ⟨r, List.mem_cons_self r t, rfl⟩
      · exact Or.inl rfl
    · exact Or.inr ⟨q, List.mem_cons_of_mem r hq, hform⟩

end FoldLemmas

section ScanLemmas

/-- With exact arithmetic and a positive step, the C++ axis loop visits exactly
the arithmetic progression predicted by the loop bounds. -/
lemma scanLoop_spec (stop step : ℚ) (hstep : 0 < step) :
    ∀ (k fuel : ℕ) (v : ℚ), k < fuel →
      v + (k : ℚ) * step ≤ stop + step / 2 → stop + step / 2 < v + ((k : ℚ) + 1) * step →
      scanLoop stop step fuel v =
        (List.range (k + 1)).map (fun j : ℕ => v + (j : ℚ) * step) := by
  intro k
  induction k with
  | zero =>
    intro fuel v hfu hle hgt
    match fuel, hfu with
    | f + 1, _ =>
      simp only [scanLoop]
      rw [if_pos (by simpa using hle)]
      have htail : scanLoop stop step f (v + step) = [] := by
        match f with
        | 0 => rfl
        | f2 + 1 =>
          simp only [scanLoop]
          rw [if_neg (by push_cast at hgt; intro hcon; linarith)]
      rw [htail]
      simp [List.range_succ]
  | succ k ih =>
    intro fuel v hfu hle hgt
    match fuel, hfu with
    | f + 1, hfu =>
      have hk : k < f := Nat.lt_of_succ_lt_succ hfu
      have hkn : (0 : ℚ) ≤ ((k : ℚ) + 1) * step := by positivity
      have hcond : v ≤ stop + step / 2 := by push_cast at hle; nlinarith
      simp only [scanLoop]
      rw [if_pos hcond]
      have hle2 : v + step + (k : ℚ) * step ≤ stop + step / 2 := by
        push_cast at hle; linarith [hle]
      have hgt2 : stop + step / 2 < v + step + ((k : ℚ) + 1) * step := by
        push_cast at hgt; linarith [hgt]
      rw [ih f (v + step) hk hle2 hgt2]
      conv_rhs => rw [List.range_succ_eq_map, List.map_cons, List.map_map]
      congr 1
      · simp
      · congr 1
        funext j
        simp only [Function.comp_apply]
        push_cast
        ring

/-- The grid one round scans along one axis, for a window of positive width:
exactly `n` equally spaced values from `start` to `stop`. -/
lemma scanLoop_grid (start stop : ℚ) (n : ℕ) (hn : 2 ≤ n) (hw : start < stop) :
    scanLoop stop ((stop - start) / ((n - 1 : ℕ) : ℚ)) (n + 1) start =
      (List.range n).map
        (fun j : ℕ => start + (j : ℚ) * ((stop - start) / ((n - 1 : ℕ) : ℚ))) := by
  have h1n : 1 ≤ n := le_trans (by norm_num) hn
  have hcast : ((n - 1 : ℕ) : ℚ) = (n : ℚ) - 1 := by push_cast [h1n]; ring
  have hnpos : (0 : ℚ) < ((n - 1 : ℕ) : ℚ) := by
    rw [hcast]
    have h2 : (2 : ℚ) ≤ (n : ℚ) := by exact_mod_cast hn
    linarith
  have hne : ((n - 1 : ℕ) : ℚ) ≠ 0 := ne_of_gt hnpos
  set step := (stop - start) / ((n - 1 : ℕ) : ℚ) with hstepdef
  have hstep : 0 < step := div_pos (by linarith) hnpos
  have hne2 : (n : ℚ) - 1 ≠ 0 := by rw [← hcast]; exact hne
  have hkey : start + (((n - 1 : ℕ) : ℚ)) * step = stop := by
    rw [hstepdef, hcast]
    field_simp
  have hrange : n - 1 + 1 = n := Nat.succ_pred_eq_of_pos (lt_of_lt_of_le (by norm_num) hn)
  have h := scanLoop_spec stop step hstep (n - 1) (n + 1) start
    (by omega)
    (by rw [hkey]; linarith)
    (by
      rw [show start + (((n - 1 : ℕ) : ℚ) + 1) * step =
        start + ((n - 1 : ℕ) : ℚ) * step + step by ring, hkey]
      linarith)
  rw [h, hrange]

/-- Membership bound for the scanned axis values. -/
lemma scanLoop_grid_mem (start stop : ℚ) (n : ℕ) (hn : 2 ≤ n) (hw : start < stop) (x : ℚ)
    (hx : x ∈ scanLoop stop ((stop - start) / ((n - 1 : ℕ) : ℚ)) (n + 1) start) :
    start ≤ x ∧ x ≤ stop := by
  rw [scanLoop_grid start stop n hn hw] at hx
  rcases List.mem_map.mp hx with ⟨j, hj, rfl⟩
  have hjn : j ≤ n - 1 := by
    have := List.mem_range.mp hj
    omega
  have h1n : 1 ≤ n := le_trans (by norm_num) hn
  have hcast : ((n - 1 : ℕ) : ℚ) = (n : ℚ) - 1 := by push_cast [h1n]; ring
  have hnpos : (0 : ℚ) < ((n - 1 : ℕ) : ℚ) := by
    rw [hcast]
    have h2 : (2 : ℚ) ≤ (n : ℚ) := by exact_mod_cast hn
    linarith
  have hne : ((n - 1 : ℕ) : ℚ) ≠ 0 := ne_of_gt hnpos
  have hstep : 0 < (stop - start) / ((n - 1 : ℕ) : ℚ) := div_pos (by linarith) hnpos
  constructor
  · nlinarith [mul_nonneg (Nat.cast_nonneg j : (0:ℚ) ≤ (j : ℚ)) (le_of_lt hstep)]
  · have hjq : (j : ℚ) ≤ ((n - 1 : ℕ) : ℚ) := by exact_mod_cast hjn
    have hmul : (j : ℚ) * ((stop - start) / ((n - 1 : ℕ) : ℚ)) ≤
        ((n - 1 : ℕ) : ℚ) * ((stop - start) / ((n - 1 : ℕ) : ℚ)) :=
      mul_le_mul_of_nonneg_right hjq (le_of_lt hstep)
    have hne2 : (n : ℚ) - 1 ≠ 0 := by rw [← hcast]; exact hne
    have hkey : start + (((n - 1 : ℕ) : ℚ)) * ((stop - start) / ((n - 1 : ℕ) : ℚ)) = stop := by
      rw [hcast]
      field_simp
    linarith

/-- Membership in the 2D grid in terms of the two axis lists. -/
lemma mem_evalPts (phases ampls : List ℚ) (q : ℚ × ℚ) :
    q ∈ evalPts phases ampls ↔ q.1 ∈ phases ∧ q.2 ∈ ampls := by
  unfold evalPts
  constructor
  · intro hq
    rcases List.mem_flatMap.mp hq with ⟨p, hp, hq2⟩
    rcases List.mem_map.mp hq2 with ⟨a, ha, rfl⟩
    exact ⟨hp, ha⟩
  · intro ⟨h1, h2⟩
    refine List.mem_flatMap.mpr ⟨q.1, h1, ?_⟩
    exact List.mem_map.mpr ⟨q.2, h2, rfl⟩

end ScanLemmas

section TraceLemmas

variable {C : Type} (corrOf : ℚ → ℚ → C) (measure : ℚ → ℚ → ℚ) (n : ℕ) (czero : C)

lemma searchTrace_succ_best (k : ℕ) :
    (searchTrace corrOf measure n czero (k + 1)).2 =
      (roundEvals corrOf measure n czero k).foldl (pointUpd corrOf measure)
        (searchTrace corrOf measure n czero k).2 := by
  conv_lhs => rw [searchTrace, searchRound]
  rw [gridScan_eq_foldl]
  rfl

lemma searchTrace_succ_win (k : ℕ) :
    (searchTrace corrOf measure n czero (k + 1)).1 =
      ⟨(searchTrace corrOf measure n czero (k + 1)).2.phase -
          phaseStep n (searchTrace corrOf measure n czero k).1,
        (searchTrace corrOf measure n czero (k + 1)).2.phase +
          phaseStep n (searchTrace corrOf measure n czero k).1,
        (searchTrace corrOf measure n czero (k + 1)).2.ampl -
          amplStep n (searchTrace corrOf measure n czero k).1,
        (searchTrace corrOf measure n czero (k + 1)).2.ampl +
          amplStep n (searchTrace corrOf measure n czero k).1⟩ := by
  conv_lhs => rw [searchTrace, searchRound]
  conv_rhs => rw [searchTrace, searchRound]

lemma trace_sup_le_succ (k : ℕ) :
    (searchTrace corrOf measure n czero k).2.suppression ≤
      (searchTrace corrOf measure n czero (k + 1)).2.suppression := by
  rw [searchTrace_succ_best]
  exact foldl_sup_mono corrOf measure _ _

lemma trace_sup_mono (k m : ℕ) (hkm : k ≤ m) :
    (searchTrace corrOf measure n czero k).2.suppression ≤
      (searchTrace corrOf measure n czero m).2.suppression := by
  induction m, hkm using Nat.le_induction with
  | base => exact le_refl _
  | succ m hm ih => exact le_trans ih (trace_sup_le_succ corrOf measure n czero m)

/-- Every measurement taken during the whole search is at most the returned
best suppression. -/
lemma allEvals_le_sup (iters : ℕ) :
    ∀ q ∈ allEvals corrOf measure n czero iters,
      measure q.1 q.2 ≤ (search corrOf measure n czero iters).suppression := by
  intro q hq
  rcases List.mem_flatMap.mp hq with ⟨k, hk, hqk⟩
  have hk2 : k < iters := List.mem_range.mp hk
  have h1 : measure q.1 q.2 ≤ (searchTrace corrOf measure n czero (k + 1)).2.suppression := by
    rw [searchTrace_succ_best]
    exact foldl_le_sup corrOf measure _ _ q hqk
  exact le_trans h1 (trace_sup_mono corrOf measure n czero (k + 1) iters hk2)

/-- The returned best is either the untouched initial state or the literal
update made at one of the evaluated grid points. -/
lemma search_provenance (iters : ℕ) :
    search corrOf measure n czero iters = initBest czero ∨
      ∃ q ∈ allEvals corrOf measure n czero iters,
        search corrOf measure n czero iters =
          ⟨corrOf q.1 q.2, measure q.1 q.2, q.1, q.2⟩ := by
  unfold search
  induction iters with
  | zero => exact Or.inl rfl
  | succ k ih =>
    rw [searchTrace_succ_best]
    rcases foldl_provenance corrOf measure (roundEvals corrOf measure n czero k)
        (searchTrace corrOf measure n czero k).2 with h | ⟨q, hq, hform⟩
    · rw [h]
      rcases ih with h2 | ⟨q, hq, h2⟩
      · exact Or.inl h2
      · refine Or.inr ⟨q, ?_, h2⟩
        rcases List.mem_flatMap.mp hq with ⟨j, hj, hqj⟩
        exact List.mem_flatMap.mpr ⟨j, List.mem_range.mpr
          (lt_trans (List.mem_range.mp hj) (Nat.lt_succ_self k)), hqj⟩
    · refine Or.inr ⟨q, ?_, hform⟩
      exact List.mem_flatMap.mpr ⟨k, List.mem_range.mpr (Nat.lt_succ_self k), hq⟩

/-- If no measurement ever exceeds the initial `best_suppression = 0`, the
running best never changes. -/
lemma trace_no_update (hm : ∀ p a, measure p a ≤ 0) (k : ℕ) :
    (searchTrace corrOf measure n czero k).2 = initBest czero := by
  induction k with
  | zero => rfl
  | succ k ih =>
    rw [searchTrace_succ_best, ih]
    exact foldl_no_update corrOf measure _ _ fun q _ => hm q.1 q.2

/-- A constant measurement keeps the running best unchanged once the best
holds that value. -/
lemma trace_const_keep (c : ℚ) (B : Best C) (hB : B.suppression = c) (k m : ℕ) (hkm : k ≤ m)
    (hmeas : ∀ p a, measure p a = c)
    (hk : (searchTrace corrOf measure n czero k).2 = B) :
    (searchTrace corrOf measure n czero m).2 = B := by
  induction m, hkm using Nat.le_induction with
  | base => exact hk
  | succ m hm ih =>
    rw [searchTrace_succ_best, ih]
    exact foldl_no_update corrOf measure _ _ fun q _ => by rw [hmeas q.1 q.2, hB]

lemma width_succ_p (k : ℕ) :
    (searchTrace corrOf measure n czero (k + 1)).1.phase_corr_stop -
        (searchTrace corrOf measure n czero (k + 1)).1.phase_corr_start =
      2 * phaseStep n (searchTrace corrOf measure n czero k).1 := by
  rw [searchTrace_succ_win]
  ring

lemma width_succ_a (k : ℕ) :
    (searchTrace corrOf measure n czero (k + 1)).1.ampl_corr_stop -
        (searchTrace corrOf measure n czero (k + 1)).1.ampl_corr_start =
      2 * amplStep n (searchTrace corrOf measure n czero k).1 := by
  rw [searchTrace_succ_win]
  ring

/-- Exact window width after `k` rounds, per axis. -/
lemma width_formula (k : ℕ) :
    ((searchTrace corrOf measure n czero k).1.phase_corr_stop -
        (searchTrace corrOf measure n czero k).1.phase_corr_start =
      (3/5) * (2 / ((n - 1 : ℕ) : ℚ)) ^ k) ∧
    ((searchTrace corrOf measure n czero k).1.ampl_corr_stop -
        (searchTrace corrOf measure n czero k).1.ampl_corr_start =
      (3/5) * (2 / ((n - 1 : ℕ) : ℚ)) ^ k) := by
  induction k with
  | zero =>
    constructor <;> · simp [searchTrace, initWindow]; norm_num
  | succ k ih =>
    constructor
    · rw [width_succ_p, phaseStep, ih.1]
      ring
    · rw [width_succ_a, amplStep, ih.2]
      ring

/-- For a grid of at least two points per axis, every reachable window has
positive width on both axes. -/
lemma window_pos (hn : 2 ≤ n) (k : ℕ) :
    (searchTrace corrOf measure n czero k).1.phase_corr_start <
        (searchTrace corrOf measure n czero k).1.phase_corr_stop ∧
      (searchTrace corrOf measure n czero k).1.ampl_corr_start <
        (searchTrace corrOf measure n czero k).1.ampl_corr_stop := by
  have h1n : 1 ≤ n := le_trans (by norm_num) hn
  have hcast : ((n - 1 : ℕ) : ℚ) = (n : ℚ) - 1 := by push_cast [h1n]; ring
  have hnpos : (0 : ℚ) < ((n - 1 : ℕ) : ℚ) := by
    rw [hcast]
    have h2 : (2 : ℚ) ≤ (n : ℚ) := by exact_mod_cast hn
    linarith
  have hpow : (0 : ℚ) < (3/5) * (2 / ((n - 1 : ℕ) : ℚ)) ^ k := by positivity
  have h := width_formula corrOf measure n czero k
  constructor
  · have := h.1
    linarith
  · have := h.2
    linarith

lemma roundPhases_eq (w : Window) (hn : 2 ≤ n)
    (hw : w.phase_corr_start < w.phase_corr_stop) :
    roundPhases n w = (List.range n).map
      (fun j : ℕ => w.phase_corr_start + (j : ℚ) * phaseStep n w) := by
  rw [roundPhases, phaseStep]
  exact scanLoop_grid _ _ n hn hw

lemma roundAmpls_eq (w : Window) (hn : 2 ≤ n)
    (hw : w.ampl_corr_start < w.ampl_corr_stop) :
    roundAmpls n w = (List.range n).map
      (fun j : ℕ => w.ampl_corr_start + (j : ℚ) * amplStep n w) := by
  rw [roundAmpls, amplStep]
  exact scanLoop_grid _ _ n hn hw

/-- For `n ≥ 2` the first grid point scanned in a round is the window's lower
corner `(phase_corr_start, ampl_corr_start)`. -/
lemma roundEvals_head (hn : 2 ≤ n) (k : ℕ)
    (hwp : (searchTrace corrOf measure n czero k).1.phase_corr_start <
      (searchTrace corrOf measure n czero k).1.phase_corr_stop)
    (hwa : (searchTrace corrOf measure n czero k).1.ampl_corr_start <
      (searchTrace corrOf measure n czero k).1.ampl_corr_stop) :
    ∃ t, roundEvals corrOf measure n czero k =
      ((searchTrace corrOf measure n czero k).1.phase_corr_start,
        (searchTrace corrOf measure n czero k).1.ampl_corr_start) :: t := by
  rw [roundEvals, roundPhases_eq n _ hn hwp, roundAmpls_eq n _ hn hwa]
  match n, hn with
  | m + 2, _ =>
    rw [List.range_succ_eq_map, List.map_cons, List.map_cons]
    simp only [Nat.cast_zero, zero_mul, add_zero]
    exact ⟨_, rfl⟩

end TraceLemmas

section ConstMeasure

variable {C : Type} (corrOf : ℚ → ℚ → C) (n : ℕ) (czero : C)

/-- With a constant positive measurement, the very first grid point scanned
wins in round one and is never displaced. -/
lemma trace_const_round1 (hn : 2 ≤ n) (c : ℚ) (hc : 0 < c) :
    (searchTrace corrOf (fun _ _ => c) n czero 1).2 =
      ⟨corrOf (-(3/10)) (-(3/10)), c, -(3/10), -(3/10)⟩ := by
  have hwin := window_pos corrOf (fun _ _ => c) n czero hn 0
  obtain ⟨t, ht⟩ := roundEvals_head corrOf (fun _ _ => c) n czero hn 0 hwin.1 hwin.2
  have hcoords : (searchTrace corrOf (fun _ _ => c) n czero 0).1 = initWindow := rfl
  rw [hcoords] at ht
  have hB : pointUpd corrOf (fun _ _ => c)
      (searchTrace corrOf (fun _ _ => c) n czero 0).2
      (initWindow.phase_corr_start, initWindow.ampl_corr_start) =
      ⟨corrOf (-(3/10)) (-(3/10)), c, -(3/10), -(3/10)⟩ := by
    show pointUpd corrOf (fun _ _ => c) (initBest czero) _ = _
    unfold pointUpd pointUpdate initBest
    rw [if_pos (by exact hc)]
    rfl
  rw [searchTrace_succ_best, ht, List.foldl_cons, hB]
  exact foldl_no_update corrOf (fun _ _ => c) t _ fun q _ => le_refl c

/-- With a constant positive measurement the whole search returns the first
grid point scanned, `(-0.3, -0.3)`, carrying the constant as its score. -/
lemma search_const_pos (hn : 2 ≤ n) (iters : ℕ) (hi : 1 ≤ iters) (c : ℚ) (hc : 0 < c) :
    search corrOf (fun _ _ => c) n czero iters =
      ⟨corrOf (-(3/10)) (-(3/10)), c, -(3/10), -(3/10)⟩ := by
  unfold search
  exact trace_const_keep corrOf (fun _ _ => c) n czero c _ rfl 1 iters hi
    (fun _ _ => rfl) (trace_const_round1 corrOf n czero hn c hc)

/-- For `n ≥ 2` and at least one round, the first grid point ever scanned is
`(-0.3, -0.3)`, the lower corner of the initial window. -/
lemma allEvals_head (measure : ℚ → ℚ → ℚ) (hn : 2 ≤ n) (iters : ℕ) (hi : 1 ≤ iters) :
    (allEvals corrOf measure n czero iters).head? = some (-(3/10), -(3/10)) := by
  have hwin := window_pos corrOf measure n czero hn 0
  obtain ⟨t, ht⟩ := roundEvals_head corrOf measure n czero hn 0 hwin.1 hwin.2
  have hcoords : (searchTrace corrOf measure n czero 0).1 = initWindow := rfl
  rw [hcoords] at ht
  match iters, hi with
  | j + 1, _ =>
    unfold allEvals
    rw [List.range_succ_eq_map, List.flatMap_cons, ht]
    rfl

end ConstMeasure

section BoundedWindow

variable {C : Type} (corrOf : ℚ → ℚ → C) (measure : ℚ → ℚ → ℚ) (n : ℕ) (czero : C)

/-- When no measurement beats the initial 0, every reachable window stays
symmetric about the origin with half-width at most the initial `0.3`
(for a grid of at least 3 points per axis). -/
lemma window_bound_of_nonpos (hm : ∀ p a, measure p a ≤ 0) (hn : 3 ≤ n) (k : ℕ) :
    (searchTrace corrOf measure n czero k).1.phase_corr_start =
        -(searchTrace corrOf measure n czero k).1.phase_corr_stop ∧
      0 < (searchTrace corrOf measure n czero k).1.phase_corr_stop ∧
      (searchTrace corrOf measure n czero k).1.phase_corr_stop ≤ 3/10 ∧
      (searchTrace corrOf measure n czero k).1.ampl_corr_start =
        -(searchTrace corrOf measure n czero k).1.ampl_corr_stop ∧
      0 < (searchTrace corrOf measure n czero k).1.ampl_corr_stop ∧
      (searchTrace corrOf measure n czero k).1.ampl_corr_stop ≤ 3/10 := by
  have h1n : 1 ≤ n := by omega
  have hcast : ((n - 1 : ℕ) : ℚ) = (n : ℚ) - 1 := by push_cast [h1n]; ring
  have hc2 : (2 : ℚ) ≤ ((n - 1 : ℕ) : ℚ) := by
    rw [hcast]
    have h3 : (3 : ℚ) ≤ (n : ℚ) := by exact_mod_cast hn
    linarith
  have hcpos : (0 : ℚ) < ((n - 1 : ℕ) : ℚ) := lt_of_lt_of_le (by norm_num) hc2
  induction k with
  | zero =>
    refine ⟨rfl, by norm_num [searchTrace, initWindow], by norm_num [searchTrace, initWindow],
      rfl, by norm_num [searchTrace, initWindow], by norm_num [searchTrace, initWindow]⟩
  | succ k ih =>
    obtain ⟨hp1, hp2, hp3, ha1, ha2, ha3⟩ := ih
    have hbest := trace_no_update corrOf measure n czero hm (k + 1)
    have hphase : (searchTrace corrOf measure n czero (k + 1)).2.phase = 0 := by
      rw [hbest]; rfl
    have hampl : (searchTrace corrOf measure n czero (k + 1)).2.ampl = 0 := by
      rw [hbest]; rfl
    rw [searchTrace_succ_win]
    have hpstep : phaseStep n (searchTrace corrOf measure n czero k).1 =
        2 * (searchTrace corrOf measure n czero k).1.phase_corr_stop /
          ((n - 1 : ℕ) : ℚ) := by
      rw [phaseStep, hp1]; ring
    have hastep : amplStep n (searchTrace corrOf measure n czero k).1 =
        2 * (searchTrace corrOf measure n czero k).1.ampl_corr_stop /
          ((n - 1 : ℕ) : ℚ) := by
      rw [amplStep, ha1]; ring
    have hppos : 0 < phaseStep n (searchTrace corrOf measure n czero k).1 := by
      rw [hpstep]; positivity
    have hapos : 0 < amplStep n (searchTrace corrOf measure n czero k).1 := by
      rw [hastep]; positivity
    have hple : phaseStep n (searchTrace corrOf measure n czero k).1 ≤ 3/10 := by
      rw [hpstep, div_le_iff₀ hcpos]
      nlinarith
    have hale : amplStep n (searchTrace corrOf measure n czero k).1 ≤ 3/10 := by
      rw [hastep, div_le_iff₀ hcpos]
      nlinarith
    refine ⟨?_, ?_, ?_, ?_, ?_, ?_⟩ <;>
      simp only [hphase, hampl, zero_sub, zero_add]
    · exact hppos
    · exact hple
    · exact hapos
    · exact hale

/-- When no measurement beats the initial 0 and the grid has at least 3
points per axis, every grid point ever evaluated stays inside the initial
`[-0.3, 0.3] × [-0.3, 0.3]` window. -/
lemma allEvals_bounded (hm : ∀ p a, measure p a ≤ 0) (hn : 3 ≤ n) (iters : ℕ) :
    ∀ q ∈ allEvals corrOf measure n czero iters,
      -(3/10) ≤ q.1 ∧ q.1 ≤ 3/10 ∧ -(3/10) ≤ q.2 ∧ q.2 ≤ 3/10 := by
  have hn2 : 2 ≤ n := by omega
  intro q hq
  rcases List.mem_flatMap.mp hq with ⟨k, _, hqk⟩
  obtain ⟨hp1, hp2, hp3, ha1, ha2, ha3⟩ :=
    window_bound_of_nonpos corrOf measure n czero hm hn k
  rw [roundEvals] at hqk
  obtain ⟨hqp, hqa⟩ := (mem_evalPts _ _ q).mp hqk
  rw [roundPhases, phaseStep] at hqp
  rw [roundAmpls, amplStep] at hqa
  have hbp := scanLoop_grid_mem _ _ n hn2 (by linarith) q.1 hqp
  have hba := scanLoop_grid_mem _ _ n hn2 (by linarith) q.2 hqa
  refine ⟨by linarith [hbp.1], by linarith [hbp.2], by linarith [hba.1], by linarith [hba.2]⟩

end BoundedWindow

/-!
## Claims: the refinement search
-/

/-- C1: in every refinement round after the first, the window on each axis is
re-centered on the best point found so far, with bounds best ± step where
step is the previous round's step size on that axis; consequently the
previous round's best point lies exactly at the center of the current
window. -/
theorem C1_window_recentering {C : Type} (corrOf : ℚ → ℚ → C) (measure : ℚ → ℚ → ℚ)
    (n : ℕ) (czero : C) (k : ℕ) :
    (searchTrace corrOf measure n czero (k + 1)).1.phase_corr_start =
        (searchTrace corrOf measure n czero (k + 1)).2.phase -
          phaseStep n (searchTrace corrOf measure n czero k).1 ∧
      (searchTrace corrOf measure n czero (k + 1)).1.phase_corr_stop =
        (searchTrace corrOf measure n czero (k + 1)).2.phase +
          phaseStep n (searchTrace corrOf measure n czero k).1 ∧
      (searchTrace corrOf measure n czero (k + 1)).1.ampl_corr_start =
        (searchTrace corrOf measure n czero (k + 1)).2.ampl -
          amplStep n (searchTrace corrOf measure n czero k).1 ∧
      (searchTrace corrOf measure n czero (k + 1)).1.ampl_corr_stop =
        (searchTrace corrOf measure n czero (k + 1)).2.ampl +
          amplStep n (searchTrace corrOf measure n czero k).1 ∧
      ((searchTrace corrOf measure n czero (k + 1)).1.phase_corr_start +
          (searchTrace corrOf measure n czero (k + 1)).1.phase_corr_stop) / 2 =
        (searchTrace corrOf measure n czero (k + 1)).2.phase ∧
      ((searchTrace corrOf measure n czero (k + 1)).1.ampl_corr_start +
          (searchTrace corrOf measure n czero (k + 1)).1.ampl_corr_stop) / 2 =
        (searchTrace corrOf measure n czero (k + 1)).2.ampl := by
  rw [searchTrace_succ_win corrOf measure n czero k]
  exact ⟨rfl, rfl, rfl, rfl, by ring, by ring⟩

/-- C2 counterexample: at the spec-modelled default grid size 5, after one
round the phase window width is 0.6·(2/4) = 0.3, not 0.6/(5−1) = 0.15 as the
claim "width divided by (grid_size − 1) each round" predicts. -/
theorem C2_counterexample :
    (searchTrace (fun _ _ => ()) (fun _ _ => (0:ℚ)) num_search_steps () 1).1.phase_corr_stop -
        (searchTrace (fun _ _ => ()) (fun _ _ => (0:ℚ)) num_search_steps () 1).1.phase_corr_start ≠
      (3/5) / ((num_search_steps - 1 : ℕ) : ℚ) ^ 1 := by
  have h := (width_formula (fun _ _ => ()) (fun _ _ => (0:ℚ)) num_search_steps () 1).1
  rw [h]
  norm_num [num_search_steps]

/-- C2 (amended): the per-round shrink factor is (grid_size − 1)/2, not
grid_size − 1: since the new window is best ± step with
step = width/(grid_size − 1), each round multiplies the width by
2/(grid_size − 1), so after k rounds the width on each axis is the initial
0.6 times (2/(grid_size − 1))^k. -/
theorem C2_width_geometric {C : Type} (corrOf : ℚ → ℚ → C) (measure : ℚ → ℚ → ℚ)
    (n : ℕ) (czero : C) (k : ℕ) :
    ((searchTrace corrOf measure n czero k).1.phase_corr_stop -
        (searchTrace corrOf measure n czero k).1.phase_corr_start =
      (3/5) * (2 / ((n - 1 : ℕ) : ℚ)) ^ k) ∧
    ((searchTrace corrOf measure n czero k).1.ampl_corr_stop -
        (searchTrace corrOf measure n czero k).1.ampl_corr_start =
      (3/5) * (2 / ((n - 1 : ℕ) : ℚ)) ^ k) :=
  width_formula corrOf measure n czero k

/-- C3 counterexample: with a measurement that is the constant 0 on every
grid point (a constant value is allowed by the claim), the search returns
the initial zero correction at coordinates (0,0) — the constant never
strictly exceeds the initial best_suppression = 0 — and not the correction
at the lexicographically first grid point scanned, which is (−0.3, −0.3). -/
theorem C3_counterexample :
    (allEvals (fun p a => (p, a)) (fun _ _ => (0:ℚ)) num_search_steps ((0:ℚ), (0:ℚ))
        num_search_iters).head? = some (-(3/10), -(3/10)) ∧
      (search (fun p a => (p, a)) (fun _ _ => (0:ℚ)) num_search_steps ((0:ℚ), (0:ℚ))
          num_search_iters).correction ≠ (-(3/10), -(3/10)) := by
  constructor
  · exact allEvals_head (fun p a => (p, a)) num_search_steps ((0:ℚ), (0:ℚ))
      (fun _ _ => (0:ℚ)) (by norm_num [num_search_steps]) num_search_iters
      (by norm_num [num_search_iters])
  · have h := trace_no_update (fun p a => (p, a)) (fun _ _ => (0:ℚ)) num_search_steps
      ((0:ℚ), (0:ℚ)) (fun _ _ => le_refl 0) num_search_iters
    unfold search
    rw [h]
    simp only [initBest, ne_eq, Prod.mk.injEq]
    norm_num

/-- C3 (amended): ties resolve to the first point scanned in scan order
provided the tied value strictly exceeds the initial best of 0: for a
measurement returning a constant positive value on every grid point, the
returned best is the correction at the lexicographically first grid point
scanned, (−0.3, −0.3), with the constant as its score; a constant value ≤ 0
updates nothing and leaves the initial zero-correction state in place. -/
theorem C3_first_scan_wins {C : Type} (corrOf : ℚ → ℚ → C) (n : ℕ) (czero : C)
    (iters : ℕ) (c : ℚ) (hn : 2 ≤ n) (hi : 1 ≤ iters) (hc : 0 < c) :
    search corrOf (fun _ _ => c) n czero iters =
        ⟨corrOf (-(3/10)) (-(3/10)), c, -(3/10), -(3/10)⟩ ∧
      (allEvals corrOf (fun _ _ => c) n czero iters).head? = some (-(3/10), -(3/10)) :=
  ⟨search_const_pos corrOf n czero hn iters hi c hc,
    allEvals_head corrOf n czero (fun _ _ => c) hn iters hi⟩

/-- C3 witness: the amended statement at grid size 5, 7 rounds, constant 1. -/
theorem C3_first_scan_wins_witness :
    (2 ≤ num_search_steps ∧ 1 ≤ num_search_iters ∧ (0:ℚ) < 1) ∧
      (search (fun p a => (p, a)) (fun _ _ => (1:ℚ)) num_search_steps ((0:ℚ), (0:ℚ))
          num_search_iters =
        ⟨(-(3/10), -(3/10)), 1, -(3/10), -(3/10)⟩ ∧
      (allEvals (fun p a => (p, a)) (fun _ _ => (1:ℚ)) num_search_steps ((0:ℚ), (0:ℚ))
          num_search_iters).head? = some (-(3/10), -(3/10))) :=
  ⟨⟨by norm_num [num_search_steps], by norm_num [num_search_iters], by norm_num⟩,
    C3_first_scan_wins (fun p a => (p, a)) num_search_steps ((0:ℚ), (0:ℚ))
      num_search_iters 1 (by norm_num [num_search_steps]) (by norm_num [num_search_iters])
      (by norm_num)⟩

/-- C4: for an accepted result (best suppression above the 30 dB threshold),
the returned suppression dominates the measurement at every grid point
evaluated in every round of that frequency's search, and the returned
correction is the literal update made at an evaluated point whose
measurement equals the returned suppression. -/
theorem C4_best_dominates {C : Type} (corrOf : ℚ → ℚ → C) (measure : ℚ → ℚ → ℚ)
    (n : ℕ) (czero : C) (iters : ℕ)
    (hacc : 30 < (search corrOf measure n czero iters).suppression) :
    (∀ q ∈ allEvals corrOf measure n czero iters,
        measure q.1 q.2 ≤ (search corrOf measure n czero iters).suppression) ∧
      ∃ q ∈ allEvals corrOf measure n czero iters,
        search corrOf measure n czero iters =
          ⟨corrOf q.1 q.2, measure q.1 q.2, q.1, q.2⟩ := by
  refine ⟨allEvals_le_sup corrOf measure n czero iters, ?_⟩
  rcases search_provenance corrOf measure n czero iters with h | h
  · rw [h] at hacc
    norm_num [initBest] at hacc
  · exact h

/-- C4 witness: a 2×2 grid, one round, constant measurement 35 dB. -/
theorem C4_best_dominates_witness :
    30 < (search (fun p a => (p, a)) (fun _ _ => (35:ℚ)) 2 ((0:ℚ), (0:ℚ)) 1).suppression ∧
      ((∀ q ∈ allEvals (fun p a => (p, a)) (fun _ _ => (35:ℚ)) 2 ((0:ℚ), (0:ℚ)) 1,
          (35:ℚ) ≤ (search (fun p a => (p, a)) (fun _ _ => (35:ℚ)) 2
            ((0:ℚ), (0:ℚ)) 1).suppression) ∧
        ∃ q ∈ allEvals (fun p a => (p, a)) (fun _ _ => (35:ℚ)) 2 ((0:ℚ), (0:ℚ)) 1,
          search (fun p a => (p, a)) (fun _ _ => (35:ℚ)) 2 ((0:ℚ), (0:ℚ)) 1 =
            ⟨(q.1, q.2), 35, q.1, q.2⟩) := by
  have h35 := search_const_pos (fun p a => (p, a)) 2 ((0:ℚ), (0:ℚ)) (by norm_num) 1
    (by norm_num) 35 (by norm_num)
  have hacc : 30 < (search (fun p a => (p, a)) (fun _ _ => (35:ℚ)) 2
      ((0:ℚ), (0:ℚ)) 1).suppression := by
    rw [h35]
    norm_num
  exact ⟨hacc, C4_best_dominates (fun p a => (p, a)) (fun _ _ => (35:ℚ)) 2
    ((0:ℚ), (0:ℚ)) 1 hacc⟩

/-- C10: the best-candidate state starts as suppression 0 at coordinates
(0,0) with the zero correction; if no measurement ever exceeds 0, the search
returns exactly that initial state (the zero correction with score 0), every
re-centered window is centered on (0,0), and — for a grid of at least three
points per axis — every grid point actually evaluated stays inside
[−0.3, 0.3]² (so, in the C++ code, every evaluated correction
polar(ampl+1, phase·tau) has modulus at least 0.7 and the returned zero
correction was never evaluated). -/
theorem C10_nonpositive_returns_init {C : Type} (corrOf : ℚ → ℚ → C) (measure : ℚ → ℚ → ℚ)
    (n : ℕ) (czero : C) (iters : ℕ)
    (hm : ∀ p a, measure p a ≤ 0) (hn : 3 ≤ n) :
    search corrOf measure n czero iters = initBest czero ∧
      initBest czero = (⟨czero, 0, 0, 0⟩ : Best C) ∧
      (∀ k, (searchTrace corrOf measure n czero (k + 1)).1.phase_corr_start +
            (searchTrace corrOf measure n czero (k + 1)).1.phase_corr_stop = 0 ∧
          (searchTrace corrOf measure n czero (k + 1)).1.ampl_corr_start +
            (searchTrace corrOf measure n czero (k + 1)).1.ampl_corr_stop = 0) ∧
      ∀ q ∈ allEvals corrOf measure n czero iters,
        -(3/10) ≤ q.1 ∧ q.1 ≤ 3/10 ∧ -(3/10) ≤ q.2 ∧ q.2 ≤ 3/10 := by
  refine ⟨trace_no_update corrOf measure n czero hm iters, rfl, ?_,
    allEvals_bounded corrOf measure n czero hm hn iters⟩
  intro k
  have hb := trace_no_update corrOf measure n czero hm (k + 1)
  rw [searchTrace_succ_win corrOf measure n czero k, hb]
  constructor <;> · simp only [initBest]; ring

/-- C10 witness: grid size 5, 7 rounds, the constant measurement 0. -/
theorem C10_nonpositive_returns_init_witness :
    (∀ p a : ℚ, (fun _ _ => (0:ℚ)) p a ≤ 0) ∧ 3 ≤ num_search_steps ∧
      search (fun p a => (p, a)) (fun _ _ => (0:ℚ)) num_search_steps ((0:ℚ), (0:ℚ))
          num_search_iters =
        initBest ((0:ℚ), (0:ℚ)) :=
  ⟨fun _ _ => le_refl 0, by norm_num [num_search_steps],
    (C10_nonpositive_returns_init (fun p a => (p, a)) (fun _ _ => (0:ℚ)) num_search_steps
      ((0:ℚ), (0:ℚ)) num_search_iters (fun _ _ => le_refl 0)
      (by norm_num [num_search_steps])).1⟩

section SimLemmas

variable {C : Type} (corrOf : ℚ → ℚ → C) (m : ℚ → ℚ → ℚ)

lemma innerE_ok (p : ℚ) (ampls : List ℚ) (b : Best C) :
    ampls.foldl (fun acc2 a => pointUpdE corrOf (fun p2 a2 => .ok (m p2 a2)) acc2 (p, a))
        (.ok b) =
      .ok (ampls.foldl (fun b2 a => pointUpdate corrOf m b2 p a) b) := by
  induction ampls generalizing b with
  | nil => rfl
  | cons a as ih =>
    rw [List.foldl_cons, List.foldl_cons]
    exact ih _

/-- When every capture succeeds, the fallible grid scan computes exactly the
pure grid scan. -/
lemma gridScanE_ok (phases ampls : List ℚ) (b : Best C) :
    gridScanE corrOf (fun p a => .ok (m p a)) phases ampls b =
      .ok (gridScan corrOf m phases ampls b) := by
  unfold gridScanE gridScan
  induction phases generalizing b with
  | nil => rfl
  | cons p ps ih =>
    rw [List.foldl_cons, List.foldl_cons, innerE_ok]
    exact ih _

lemma searchRoundE_ok (n : ℕ) (st : Window × Best C) :
    searchRoundE corrOf (fun p a => .ok (m p a)) n st = .ok (searchRound corrOf m n st) := by
  unfold searchRoundE
  rw [gridScanE_ok]
  rfl

lemma searchTraceE_ok (n : ℕ) (czero : C) (k : ℕ) :
    searchTraceE corrOf (fun p a => .ok (m p a)) n czero k =
      .ok (searchTrace corrOf m n czero k) := by
  induction k with
  | zero => rfl
  | succ k ih =>
    unfold searchTraceE
    rw [ih]
    exact searchRoundE_ok corrOf m n _

/-- When every capture succeeds, the fallible search returns the pure
search result. -/
lemma searchE_ok (n : ℕ) (czero : C) (iters : ℕ) :
    searchE corrOf (fun p a => .ok (m p a)) n czero iters =
      .ok (search corrOf m n czero iters) := by
  unfold searchE
  rw [searchTraceE_ok]
  rfl

end SimLemmas

section SweepLemmas

variable {C : Type} (corrOf : ℚ → ℚ → C)

lemma runSweep_cons_none (tuneO : ℚ → Option ℚ) (measureE : ℚ → ℚ → ℚ → Except Unit ℚ)
    (n iters : ℕ) (czero : C) (f : ℚ) (rest : List ℚ) (h : tuneO f = none) :
    runSweep corrOf tuneO measureE n iters czero (f :: rest) =
      ([Ev.tuneEv f], .error SweepErr.lockTimeout) := by
  rw [runSweep, h]

lemma runSweep_cons_err (tuneO : ℚ → Option ℚ) (measureE : ℚ → ℚ → ℚ → Except Unit ℚ)
    (n iters : ℕ) (czero : C) (f rx_lo : ℚ) (rest : List ℚ) (e : Unit)
    (h : tuneO f = some rx_lo)
    (hs : searchE corrOf (measureE rx_lo) n czero iters = .error e) :
    runSweep corrOf tuneO measureE n iters czero (f :: rest) =
      ([Ev.tuneEv f], .error SweepErr.captureErr) := by
  rw [runSweep, h]
  simp only [hs]

lemma runSweep_cons_ok (tuneO : ℚ → Option ℚ) (measureE : ℚ → ℚ → ℚ → Except Unit ℚ)
    (n iters : ℕ) (czero : C) (f rx_lo : ℚ) (rest : List ℚ) (b : Best C)
    (h : tuneO f = some rx_lo)
    (hs : searchE corrOf (measureE rx_lo) n czero iters = .ok b) :
    runSweep corrOf tuneO measureE n iters czero (f :: rest) =
      (Ev.tuneEv f :: (runSweep corrOf tuneO measureE n iters czero rest).1,
        match (runSweep corrOf tuneO measureE n iters czero rest).2 with
        | .error e => .error e
        | .ok tbl =>
          .ok ((if b.suppression > 30 then [⟨rx_lo, b.correction, b.suppression⟩] else []) ++
            tbl)) := by
  rw [runSweep, h]
  simp only [hs]

/-- When every tune and every capture succeeds, the sweep tunes each
candidate in order and the final table is exactly the concatenation, in
sweep order, of one entry per frequency whose best suppression strictly
exceeds 30 dB. -/
lemma runSweep_ok (tuneA : ℚ → ℚ) (m : ℚ → ℚ → ℚ → ℚ) (n iters : ℕ) (czero : C)
    (freqs : List ℚ) :
    runSweep corrOf (fun f => some (tuneA f)) (fun f p a => .ok (m f p a)) n iters czero
        freqs =
      (freqs.map Ev.tuneEv,
        .ok (freqs.flatMap fun f =>
          if (search corrOf (m (tuneA f)) n czero iters).suppression > 30 then
            [⟨tuneA f, (search corrOf (m (tuneA f)) n czero iters).correction,
              (search corrOf (m (tuneA f)) n czero iters).suppression⟩]
          else [])) := by
  induction freqs with
  | nil => rfl
  | cons f fs ih =>
    rw [runSweep_cons_ok corrOf (fun f2 => some (tuneA f2))
      (fun f2 p a => .ok (m f2 p a)) n iters czero f (tuneA f) fs
      (search corrOf (m (tuneA f)) n czero iters) rfl
      (searchE_ok corrOf (m (tuneA f)) n czero iters)]
    rw [ih]
    rw [List.map_cons, List.flatMap_cons]

/-- If the first candidate whose tune fails is f (all candidates before it
tune successfully and no capture ever fails), the sweep stops at f with a
lock-timeout error, having tuned exactly the prefix and f. -/
lemma runSweep_tunefail (tuneO : ℚ → Option ℚ) (m : ℚ → ℚ → ℚ → ℚ) (n iters : ℕ)
    (czero : C) :
    ∀ (l1 : List ℚ) (f : ℚ) (l2 : List ℚ), (∀ g ∈ l1, ∃ r, tuneO g = some r) →
      tuneO f = none →
      runSweep corrOf tuneO (fun f2 p a => .ok (m f2 p a)) n iters czero (l1 ++ f :: l2) =
        (l1.map Ev.tuneEv ++ [Ev.tuneEv f], .error SweepErr.lockTimeout) := by
  intro l1
  induction l1 with
  | nil =>
    intro f l2 _ hf
    rw [List.nil_append,
      runSweep_cons_none corrOf tuneO (fun f2 p a => .ok (m f2 p a)) n iters czero f l2 hf]
    rfl
  | cons g gs ih =>
    intro f l2 h1 hf
    obtain ⟨r, hr⟩ := h1 g (List.mem_cons_self g gs)
    rw [List.cons_append,
      runSweep_cons_ok corrOf tuneO (fun f2 p a => .ok (m f2 p a)) n iters czero g r
        (gs ++ f :: l2) (search corrOf (m r) n czero iters) hr
        (searchE_ok corrOf (m r) n czero iters),
      ih f l2 (fun g2 hg2 => h1 g2 (List.mem_cons_of_mem g hg2)) hf]
    rfl

/-- Every event the sweep loop itself emits is a tune event. -/
lemma runSweep_trace_tunes (tuneO : ℚ → Option ℚ) (measureE : ℚ → ℚ → ℚ → Except Unit ℚ)
    (n iters : ℕ) (czero : C) (freqs : List ℚ) :
    ∀ e ∈ (runSweep corrOf tuneO measureE n iters czero freqs).1, ∃ f, e = Ev.tuneEv f := by
  induction freqs with
  | nil => intro e he; cases he
  | cons f fs ih =>
    intro e he
    match htune : tuneO f with
    | none =>
      rw [runSweep_cons_none corrOf tuneO measureE n iters czero f fs htune] at he
      rcases List.mem_singleton.mp he with rfl
      exact ⟨f, rfl⟩
    | some rx_lo =>
      match hs : searchE corrOf (measureE rx_lo) n czero iters with
      | .error e2 =>
        rw [runSweep_cons_err corrOf tuneO measureE n iters czero f rx_lo fs e2 htune hs]
          at he
        rcases List.mem_singleton.mp he with rfl
        exact ⟨f, rfl⟩
      | .ok b =>
        rw [runSweep_cons_ok corrOf tuneO measureE n iters czero f rx_lo fs b htune hs]
          at he
        simp only [List.mem_cons] at he
        rcases he with rfl | he2
        · exact ⟨f, rfl⟩
        · exact ih e he2

lemma mainRun_of_sweep_err (tuneO : ℚ → Option ℚ) (measureE : ℚ → ℚ → ℚ → Except Unit ℚ)
    (n iters : ℕ) (czero : C) (freqs : List ℚ) (e : SweepErr)
    (hr : (runSweep corrOf tuneO measureE n iters czero freqs).2 = .error e) :
    mainRun corrOf tuneO measureE n iters czero freqs =
      ((runSweep corrOf tuneO measureE n iters czero freqs).1, .error e) := by
  simp only [mainRun, hr]

lemma mainRun_of_sweep_ok (tuneO : ℚ → Option ℚ) (measureE : ℚ → ℚ → ℚ → Except Unit ℚ)
    (n iters : ℕ) (czero : C) (freqs : List ℚ) (tbl : List (result_t C))
    (hr : (runSweep corrOf tuneO measureE n iters czero freqs).2 = .ok tbl) :
    mainRun corrOf tuneO measureE n iters czero freqs =
      ((runSweep corrOf tuneO measureE n iters czero freqs).1 ++ [Ev.stopTxEv, Ev.storeEv],
        .ok tbl) := by
  simp only [mainRun, hr]

/-- On an error outcome the sweep loop itself errored and the main routine's
trace is the sweep loop's trace: the post-loop statements never run. -/
lemma mainRun_err (tuneO : ℚ → Option ℚ) (measureE : ℚ → ℚ → ℚ → Except Unit ℚ)
    (n iters : ℕ) (czero : C) (freqs : List ℚ) (e : SweepErr)
    (he : (mainRun corrOf tuneO measureE n iters czero freqs).2 = .error e) :
    (runSweep corrOf tuneO measureE n iters czero freqs).2 = .error e ∧
      (mainRun corrOf tuneO measureE n iters czero freqs).1 =
        (runSweep corrOf tuneO measureE n iters czero freqs).1 := by
  match hr : (runSweep corrOf tuneO measureE n iters czero freqs).2 with
  | .ok tbl =>
    rw [mainRun_of_sweep_ok corrOf tuneO measureE n iters czero freqs tbl hr] at he
    cases he
  | .error e2 =>
    have h2 := mainRun_of_sweep_err corrOf tuneO measureE n iters czero freqs e2 hr
    rw [h2] at he
    have he2 : e2 = e := by simpa using he
    subst he2
    refine ⟨rfl, ?_⟩
    rw [h2]

end SweepLemmas

section FreqLemmas

lemma freqLoop_nil (stop step v : ℚ) (h : ¬ v < stop) (fuel : ℕ) :
    freqLoop stop step fuel v = [] := by
  match fuel with
  | 0 => rfl
  | f + 1 => rw [freqLoop, if_neg h]

/-- With a positive step, the sweep loop visits exactly the arithmetic
progression below the stop bound. -/
lemma freqLoop_spec (stop step : ℚ) (_hstep : 0 < step) :
    ∀ (N fuel : ℕ) (v : ℚ), N < fuel →
      (∀ k : ℕ, k < N → v + (k : ℚ) * step < stop) → stop ≤ v + (N : ℚ) * step →
      freqLoop stop step fuel v = (List.range N).map (fun k : ℕ => v + (k : ℚ) * step) := by
  intro N
  induction N with
  | zero =>
    intro fuel v _ _ hge
    rw [freqLoop_nil stop step v (by push_cast at hge; intro hcon; linarith) fuel]
    rfl
  | succ N ih =>
    intro fuel v hfu hlt hge
    match fuel, hfu with
    | f + 1, hfu =>
      have hN : N < f := Nat.lt_of_succ_lt_succ hfu
      have h0 : v < stop := by
        have := hlt 0 (Nat.succ_pos N)
        simpa using this
      rw [freqLoop, if_pos h0]
      have hlt2 : ∀ k : ℕ, k < N → v + step + (k : ℚ) * step < stop := by
        intro k hk
        have := hlt (k + 1) (Nat.succ_lt_succ hk)
        push_cast at this
        linarith
      have hge2 : stop ≤ v + step + (N : ℚ) * step := by
        push_cast at hge
        linarith
      rw [ih f (v + step) hN hlt2 hge2]
      conv_rhs => rw [List.range_succ_eq_map, List.map_cons, List.map_map]
      congr 1
      · simp
      · congr 1
        funext j
        simp only [Function.comp_apply]
        push_cast
        ring

end FreqLemmas

/-!
## Claims: sweep, acceptance, error handling
-/

/-- C5 counterexample: for the frequency range [100e6, 200e6] with step 10e6
and guard 50e6, the candidate set is empty — the loop condition
start+guard < stop−guard is already false at 150e6 — not the claimed
set containing exactly 150e6. -/
theorem C5_counterexample :
    sweepCands 100000000 200000000 10000000 20 ≠ [150000000] := by
  have h : sweepCands 100000000 200000000 10000000 20 = [] := by
    rw [sweepCands]
    exact freqLoop_nil _ _ _ (by norm_num) 20
  rw [h]
  simp

/-- C5 (amended): the sweep visits exactly start+guard, start+guard+step, …
strictly below stop−guard (guard = 50e6); for the range [100e6, 200e6] —
which is exactly twice the guard band wide — the candidate set is empty, and
for any range of width at most twice the guard band the candidate set is
empty and the sweep loop completes with no candidates rather than failing. -/
theorem C5_sweep_candidates :
    (∀ fuel, sweepCands 100000000 200000000 10000000 fuel = []) ∧
      (∀ (rstart rstop step : ℚ) (fuel : ℕ), rstop - rstart ≤ 100000000 →
        sweepCands rstart rstop step fuel = []) ∧
      (∀ (rstart rstop step : ℚ) (N fuel : ℕ), 0 < step → N < fuel →
        (∀ k : ℕ, k < N → rstart + 50000000 + (k : ℚ) * step < rstop - 50000000) →
        rstop - 50000000 ≤ rstart + 50000000 + (N : ℚ) * step →
        sweepCands rstart rstop step fuel =
          (List.range N).map (fun k : ℕ => rstart + 50000000 + (k : ℚ) * step)) := by
  refine ⟨?_, ?_, ?_⟩
  · intro fuel
    rw [sweepCands]
    exact freqLoop_nil _ _ _ (by norm_num) fuel
  · intro rstart rstop step fuel hnarrow
    rw [sweepCands]
    exact freqLoop_nil _ _ _ (by intro hcon; linarith) fuel
  · intro rstart rstop step N fuel hstep hfu hlt hge
    rw [sweepCands]
    exact freqLoop_spec _ step hstep N fuel _ hfu hlt hge

/-- C5 witness: range [100e6, 201e6], step 10e6 — one candidate, 150e6;
and the twice-guard-wide range [100e6, 200e6] yields the empty sweep. -/
theorem C5_sweep_candidates_witness :
    ((0:ℚ) < 10000000 ∧ (1:ℕ) < 2 ∧
      (∀ k : ℕ, k < 1 → (100000000:ℚ) + 50000000 + (k : ℚ) * 10000000 <
        201000000 - 50000000) ∧
      (201000000:ℚ) - 50000000 ≤ 100000000 + 50000000 + ((1:ℕ) : ℚ) * 10000000) ∧
      sweepCands 100000000 201000000 10000000 2 = [150000000] ∧
      sweepCands 100000000 200000000 10000000 3 = [] := by
  have h0 : (0:ℚ) < 10000000 := by norm_num
  have h1 : (1:ℕ) < 2 := by norm_num
  have h2 : ∀ k : ℕ, k < 1 → (100000000:ℚ) + 50000000 + (k : ℚ) * 10000000 <
      201000000 - 50000000 := by
    intro k hk
    have hk0 : k = 0 := by omega
    subst hk0
    norm_num
  have h3 : (201000000:ℚ) - 50000000 ≤ 100000000 + 50000000 + ((1:ℕ) : ℚ) * 10000000 := by
    norm_num
  refine ⟨⟨h0, h1, h2, h3⟩, ?_, C5_sweep_candidates.1 3⟩
  rw [C5_sweep_candidates.2.2 100000000 201000000 10000000 1 2 h0 h1 h2 h3]
  norm_num [List.range_succ]

/-- C6: with every tune and capture succeeding, the result table is exactly
the concatenation, in sweep order, of one CalibrationEntry (frequency, best
correction, best suppression) per frequency whose best suppression strictly
exceeds 30 dB: an entry is appended iff the threshold is beaten, a frequency
that misses it contributes nothing, and the sweep still completes
successfully over the remaining frequencies. -/
theorem C6_threshold_append {C : Type} (corrOf : ℚ → ℚ → C) (tuneA : ℚ → ℚ)
    (m : ℚ → ℚ → ℚ → ℚ) (n iters : ℕ) (czero : C) (freqs : List ℚ) :
    runSweep corrOf (fun f => some (tuneA f)) (fun f p a => .ok (m f p a)) n iters czero
        freqs =
      (freqs.map Ev.tuneEv,
        .ok (freqs.flatMap fun f =>
          if (search corrOf (m (tuneA f)) n czero iters).suppression > 30 then
            [⟨tuneA f, (search corrOf (m (tuneA f)) n czero iters).correction,
              (search corrOf (m (tuneA f)) n czero iters).suppression⟩]
          else [])) :=
  runSweep_ok corrOf tuneA m n iters czero freqs

/-- C7: a lock timeout at any candidate frequency aborts the whole sweep —
the frequencies before it are tuned, no later one is ever visited, and the
result store is never written; conversely, when every tune and every capture
succeeds, the sweep always ends by writing a table (possibly empty). -/
theorem C7_lock_timeout_aborts {C : Type} (corrOf : ℚ → ℚ → C) (m : ℚ → ℚ → ℚ → ℚ)
    (n iters : ℕ) (czero : C) :
    (∀ (tuneO : ℚ → Option ℚ) (l1 : List ℚ) (f : ℚ) (l2 : List ℚ),
        (∀ g ∈ l1, ∃ r, tuneO g = some r) → tuneO f = none →
        mainRun corrOf tuneO (fun f2 p a => .ok (m f2 p a)) n iters czero (l1 ++ f :: l2) =
            (l1.map Ev.tuneEv ++ [Ev.tuneEv f], .error SweepErr.lockTimeout) ∧
          Ev.storeEv ∉ l1.map Ev.tuneEv ++ [Ev.tuneEv f] ∧
          ∀ g : ℚ, Ev.tuneEv g ∈ l1.map Ev.tuneEv ++ [Ev.tuneEv f] → g ∈ l1 ∨ g = f) ∧
      ∀ (tuneA : ℚ → ℚ) (freqs : List ℚ), ∃ tbl,
        mainRun corrOf (fun f => some (tuneA f)) (fun f p a => .ok (m f p a)) n iters czero
            freqs =
          (freqs.map Ev.tuneEv ++ [Ev.stopTxEv, Ev.storeEv], .ok tbl) := by
  constructor
  · intro tuneO l1 f l2 h1 hf
    have hrs := runSweep_tunefail corrOf tuneO m n iters czero l1 f l2 h1 hf
    have h2 : (runSweep corrOf tuneO (fun f2 p a => .ok (m f2 p a)) n iters czero
        (l1 ++ f :: l2)).2 = .error SweepErr.lockTimeout := by rw [hrs]
    refine ⟨?_, ?_, ?_⟩
    · rw [mainRun_of_sweep_err corrOf tuneO (fun f2 p a => .ok (m f2 p a)) n iters czero
        (l1 ++ f :: l2) SweepErr.lockTimeout h2, hrs]
    · simp
    · intro g hg
      simp only [List.mem_append, List.mem_map, List.mem_singleton] at hg
      rcases hg with ⟨g2, hg2, he⟩ | he
      · rcases Ev.tuneEv.inj he with rfl
        exact Or.inl hg2
      · rcases Ev.tuneEv.inj he.symm with rfl
        exact Or.inr rfl
  · intro tuneA freqs
    have hrs := runSweep_ok corrOf tuneA m n iters czero freqs
    have h2 : (runSweep corrOf (fun f => some (tuneA f)) (fun f p a => .ok (m f p a)) n
        iters czero freqs).2 = .ok (freqs.flatMap fun f =>
          if (search corrOf (m (tuneA f)) n czero iters).suppression > 30 then
            [⟨tuneA f, (search corrOf (m (tuneA f)) n czero iters).correction,
              (search corrOf (m (tuneA f)) n czero iters).suppression⟩]
          else []) := by rw [hrs]
    refine ⟨freqs.flatMap fun f =>
      if (search corrOf (m (tuneA f)) n czero iters).suppression > 30 then
        [⟨tuneA f, (search corrOf (m (tuneA f)) n czero iters).correction,
          (search corrOf (m (tuneA f)) n czero iters).suppression⟩]
      else [], ?_⟩
    rw [mainRun_of_sweep_ok corrOf (fun f => some (tuneA f)) (fun f p a => .ok (m f p a))
      n iters czero freqs _ h2, hrs]

/-- C7 witness: candidate list [1, 2, 3] where tuning fails at 2: candidate 1
is tuned, the sweep aborts at 2, candidate 3 is never visited, nothing is
stored. -/
theorem C7_lock_timeout_aborts_witness :
    ((∀ g ∈ [(1:ℚ)], ∃ r, (fun x : ℚ => if x = 2 then none else some x) g = some r) ∧
        (fun x : ℚ => if x = 2 then none else some x) 2 = none) ∧
      (mainRun (fun p a : ℚ => (p, a)) (fun x : ℚ => if x = 2 then none else some x)
          (fun f2 p a => .ok ((fun _ _ _ => (0:ℚ)) f2 p a)) 5 7 ((0:ℚ), (0:ℚ))
          ([(1:ℚ)] ++ 2 :: [3]) =
          ([(1:ℚ)].map Ev.tuneEv ++ [Ev.tuneEv 2], .error SweepErr.lockTimeout) ∧
        Ev.storeEv ∉ [(1:ℚ)].map Ev.tuneEv ++ [Ev.tuneEv 2] ∧
        ∀ g : ℚ, Ev.tuneEv g ∈ [(1:ℚ)].map Ev.tuneEv ++ [Ev.tuneEv 2] →
          g ∈ [(1:ℚ)] ∨ g = 2) := by
  have h1 : ∀ g ∈ [(1:ℚ)], ∃ r, (fun x : ℚ => if x = 2 then none else some x) g = some r := by
    intro g hg
    rcases List.mem_singleton.mp hg with rfl
    exact ⟨1, by norm_num⟩
  have h2 : (fun x : ℚ => if x = 2 then none else some x) 2 = none := by norm_num
  exact ⟨⟨h1, h2⟩,
    (C7_lock_timeout_aborts (fun p a : ℚ => (p, a)) (fun _ _ _ => (0:ℚ)) 5 7
      ((0:ℚ), (0:ℚ))).1 (fun x : ℚ => if x = 2 then none else some x) [(1:ℚ)] 2 [3] h1 h2⟩

/-- C8: capture_samples raises an error iff the device reports a nonzero
error code or fewer samples than requested arrive (the device never delivers
more than requested); with error code none and the exact count, it returns
normally. -/
theorem C8_capture_iff (error_code num_rx_samps nsamps : ℕ)
    (hle : num_rx_samps ≤ nsamps) :
    ((∃ e, capture_samples error_code num_rx_samps nsamps = .error e) ↔
        (error_code ≠ ERROR_CODE_NONE ∨ num_rx_samps < nsamps)) ∧
      (error_code = ERROR_CODE_NONE ∧ num_rx_samps = nsamps →
        capture_samples error_code num_rx_samps nsamps = .ok ()) := by
  unfold capture_samples ERROR_CODE_NONE
  split_ifs with h1 h2
  · constructor
    · constructor
      · intro _
        exact Or.inl h1
      · intro _
        exact ⟨_, rfl⟩
    · intro ⟨ha, _⟩
      exact absurd ha h1
  · constructor
    · constructor
      · intro _
        exact Or.inr (by omega)
      · intro _
        exact ⟨_, rfl⟩
    · intro ⟨_, hb⟩
      exact absurd hb h2
  · constructor
    · constructor
      · intro ⟨e, he⟩
        exact absurd he (by simp)
      · intro h
        rcases h with hc | hc
        · exact absurd hc h1
        · omega
    · intro _
      rfl

/-- C8 witness: error code none, 10 of 10 samples delivered. -/
theorem C8_capture_iff_witness :
    (10:ℕ) ≤ 10 ∧
      (((∃ e, capture_samples 0 10 10 = .error e) ↔
          ((0:ℕ) ≠ ERROR_CODE_NONE ∨ (10:ℕ) < 10)) ∧
        ((0:ℕ) = ERROR_CODE_NONE ∧ (10:ℕ) = 10 → capture_samples 0 10 10 = .ok ())) :=
  ⟨le_refl 10, C8_capture_iff 0 10 10 (le_refl 10)⟩

/-- C9 counterexample: a lock timeout at the very first candidate frequency
exits the program with the transmit thread never interrupted or joined — the
trace of the aborted run contains no stop-transmit event, contradicting the
claim that the stop contract is honored on every exit path. -/
theorem C9_counterexample :
    Ev.stopTxEv ∉ (mainRun (fun p a : ℚ => (p, a)) (fun _ => none) (fun _ _ _ => .ok 0)
        num_search_steps num_search_iters ((0:ℚ), (0:ℚ)) [100000000]).1 ∧
      (mainRun (fun p a : ℚ => (p, a)) (fun _ => none) (fun _ _ _ => .ok 0)
          num_search_steps num_search_iters ((0:ℚ), (0:ℚ)) [100000000]).2 =
        .error SweepErr.lockTimeout := by
  have hrs := runSweep_cons_none (fun p a : ℚ => (p, a)) (fun _ => none)
    (fun _ _ _ => .ok (0:ℚ)) num_search_steps num_search_iters ((0:ℚ), (0:ℚ))
    100000000 [] rfl
  have h2 : (runSweep (fun p a : ℚ => (p, a)) (fun _ => none) (fun _ _ _ => .ok (0:ℚ))
      num_search_steps num_search_iters ((0:ℚ), (0:ℚ)) [100000000]).2 =
      .error SweepErr.lockTimeout := by rw [hrs]
  have h := mainRun_of_sweep_err (fun p a : ℚ => (p, a)) (fun _ => none)
    (fun _ _ _ => .ok (0:ℚ)) num_search_steps num_search_iters ((0:ℚ), (0:ℚ))
    [100000000] SweepErr.lockTimeout h2
  rw [h, hrs]
  constructor
  · simp
  · rfl

/-- C9 (amended): the transmit thread is interrupted and joined (sending its
end-of-burst marker) only on the normal-completion path, where it happens
after the sweep loop and before the results are stored; on any error exit
(lock timeout or capture error) the program leaves without signaling the
transmitter to stop and without storing results. -/
theorem C9_stop_only_on_normal_exit {C : Type} (corrOf : ℚ → ℚ → C) (n iters : ℕ)
    (czero : C) :
    (∀ (tuneO : ℚ → Option ℚ) (measureE : ℚ → ℚ → ℚ → Except Unit ℚ) (freqs : List ℚ)
        (e : SweepErr),
      (mainRun corrOf tuneO measureE n iters czero freqs).2 = .error e →
        Ev.stopTxEv ∉ (mainRun corrOf tuneO measureE n iters czero freqs).1 ∧
          Ev.storeEv ∉ (mainRun corrOf tuneO measureE n iters czero freqs).1) ∧
      ∀ (tuneA : ℚ → ℚ) (m : ℚ → ℚ → ℚ → ℚ) (freqs : List ℚ), ∃ tbl,
        mainRun corrOf (fun f => some (tuneA f)) (fun f p a => .ok (m f p a)) n iters czero
            freqs =
          (freqs.map Ev.tuneEv ++ [Ev.stopTxEv, Ev.storeEv], .ok tbl) := by
  constructor
  · intro tuneO measureE freqs e he
    obtain ⟨h2, h3⟩ := mainRun_err corrOf tuneO measureE n iters czero freqs e he
    rw [h3]
    constructor
    · intro hmem
      obtain ⟨f, hf⟩ := runSweep_trace_tunes corrOf tuneO measureE n iters czero freqs _ hmem
      simp at hf
    · intro hmem
      obtain ⟨f, hf⟩ := runSweep_trace_tunes corrOf tuneO measureE n iters czero freqs _ hmem
      simp at hf
  · intro tuneA m freqs
    have hrs := runSweep_ok corrOf tuneA m n iters czero freqs
    have h2 : (runSweep corrOf (fun f => some (tuneA f)) (fun f p a => .ok (m f p a)) n
        iters czero freqs).2 = .ok (freqs.flatMap fun f =>
          if (search corrOf (m (tuneA f)) n czero iters).suppression > 30 then
            [⟨tuneA f, (search corrOf (m (tuneA f)) n czero iters).correction,
              (search corrOf (m (tuneA f)) n czero iters).suppression⟩]
          else []) := by rw [hrs]
    refine ⟨freqs.flatMap fun f =>
      if (search corrOf (m (tuneA f)) n czero iters).suppression > 30 then
        [⟨tuneA f, (search corrOf (m (tuneA f)) n czero iters).correction,
          (search corrOf (m (tuneA f)) n czero iters).suppression⟩]
      else [], ?_⟩
    rw [mainRun_of_sweep_ok corrOf (fun f => some (tuneA f)) (fun f p a => .ok (m f p a))
      n iters czero freqs _ h2, hrs]

/-- C9 witness: the error branch of the amended statement at a concrete
failing oracle. -/
theorem C9_stop_only_on_normal_exit_witness :
    (mainRun (fun p a : ℚ => (p, a)) (fun _ => none) (fun _ _ _ => .ok 0) 5 7
        ((0:ℚ), (0:ℚ)) [(0:ℚ)]).2 = .error SweepErr.lockTimeout ∧
      (Ev.stopTxEv ∉ (mainRun (fun p a : ℚ => (p, a)) (fun _ => none) (fun _ _ _ => .ok 0)
          5 7 ((0:ℚ), (0:ℚ)) [(0:ℚ)]).1 ∧
        Ev.storeEv ∉ (mainRun (fun p a : ℚ => (p, a)) (fun _ => none) (fun _ _ _ => .ok 0)
          5 7 ((0:ℚ), (0:ℚ)) [(0:ℚ)]).1) := by
  have hrs := runSweep_cons_none (fun p a : ℚ => (p, a)) (fun _ => none)
    (fun _ _ _ => .ok (0:ℚ)) 5 7 ((0:ℚ), (0:ℚ)) 0 [] rfl
  have h2 : (runSweep (fun p a : ℚ => (p, a)) (fun _ => none) (fun _ _ _ => .ok (0:ℚ))
      5 7 ((0:ℚ), (0:ℚ)) [(0:ℚ)]).2 = .error SweepErr.lockTimeout := by rw [hrs]
  have he : (mainRun (fun p a : ℚ => (p, a)) (fun _ => none) (fun _ _ _ => .ok 0) 5 7
      ((0:ℚ), (0:ℚ)) [(0:ℚ)]).2 = .error SweepErr.lockTimeout := by
    rw [mainRun_of_sweep_err (fun p a : ℚ => (p, a)) (fun _ => none)
      (fun _ _ _ => .ok (0:ℚ)) 5 7 ((0:ℚ), (0:ℚ)) [(0:ℚ)] SweepErr.lockTimeout h2]
  exact ⟨he, (C9_stop_only_on_normal_exit (fun p a : ℚ => (p, a)) 5 7 ((0:ℚ), (0:ℚ))).1
    (fun _ => none) (fun _ _ _ => .ok 0) [(0:ℚ)] SweepErr.lockTimeout he⟩
